import Mathlib

/-!
Shallow embedding of `sentence_tokenizer_Regex.py` (class `GujaratiSentenceTokenizer`).

Strings are modelled as `List Char` (Unicode scalar values, as in Python 3 `str`).
The regular expressions of the source are transcribed into a small regex AST
(`RE`) and executed by a fuel-based backtracking matcher `matchRE` that mirrors
Python `re` semantics on these patterns: leftmost match, alternation prefers the
earlier branch, quantifiers are greedy.  `matchRE` returns the list of possible
remainders (suffix after the consumed prefix) in backtracking priority order, so
its head is the remainder of the match Python's engine takes.  Fuel is a
technical device for structural recursion; every wrapper supplies fuel larger
than any possible number of recursion steps (one unit per AST layer unfolded,
with star iterations bounded by the input length because every repeated
sub-pattern here consumes at least one character).

Python's Unicode character classes are modelled restricted to the scripts this
program targets (ASCII, Gujarati, Devanagari): `\s` is the six ASCII whitespace
characters, `\d` is decimal digits of those scripts, `\w` is ASCII alphanumerics,
underscore, those digits and the Gujarati block.  All concrete inputs appearing
in the claims use only these characters.
-/

namespace GST

/-- Decimal-digit rendering of a `Nat` (fuel-based; `natDigits` below supplies
enough fuel), matching Python `str(n)` for the store indices used here. -/
def natDigitsAux : Nat → Nat → List Char
  | 0, _ => []
  | f + 1, n =>
    if n < 10 then [Char.ofNat (48 + n)]
    else natDigitsAux f (n / 10) ++ [Char.ofNat (48 + n % 10)]

def natDigits (n : Nat) : List Char := natDigitsAux (n + 1) n

/-- Python whitespace (`\s`, `str.strip`): space, tab, newline, CR, VT, FF. -/
def isPySpace (c : Char) : Bool :=
  c == ' ' || c == '\t' || c == '\n' || c == '\r' || c == '\x0b' || c == '\x0c'

/-- ASCII decimal digit. -/
def isAsciiDigitC (c : Char) : Bool := decide (48 ≤ c.toNat ∧ c.toNat ≤ 57)

/-- Gujarati decimal digits U+0AE6..U+0AEF (the class `[૦-૯]`). -/
def isGujDigit (c : Char) : Bool := decide (0x0AE6 ≤ c.toNat ∧ c.toNat ≤ 0x0AEF)

/-- Devanagari decimal digits U+0966..U+096F. -/
def isDevDigit (c : Char) : Bool := decide (0x0966 ≤ c.toNat ∧ c.toNat ≤ 0x096F)

/-- Python `\d` (Unicode decimal digit), restricted to the scripts in scope. -/
def isPyDigit (c : Char) : Bool := isAsciiDigitC c || isDevDigit c || isGujDigit c

/-- Gujarati block U+0A80..U+0AFF (the class `[઀-૿]`). -/
def isGujBlock (c : Char) : Bool := decide (0x0A80 ≤ c.toNat ∧ c.toNat ≤ 0x0AFF)

/-- The class `[ા-ૌઁ-ઃ્]` (matras, anusvara, visarga,
virama). -/
def isGujMatra (c : Char) : Bool :=
  decide (0x0ABE ≤ c.toNat ∧ c.toNat ≤ 0x0ACC) ||
  decide (0x0A81 ≤ c.toNat ∧ c.toNat ≤ 0x0A83) ||
  decide (c.toNat = 0x0ACD)

def isAsciiAlpha (c : Char) : Bool :=
  decide (97 ≤ c.toNat ∧ c.toNat ≤ 122) || decide (65 ≤ c.toNat ∧ c.toNat ≤ 90)

/-- Python `\w` (word character), restricted to the scripts in scope. -/
def isPyWord (c : Char) : Bool :=
  isAsciiAlpha c || isPyDigit c || c == '_' || isGujBlock c

/-- The class `[\w\.-]` of the email pattern's local part. -/
def isEmailLocalChar (c : Char) : Bool := isPyWord c || c == '.' || c == '-'

/-- The date pattern's separator class: `-` or `/`. -/
def isDashSlash (c : Char) : Bool := c == '-' || c == '/'

/-- The boundary class `[\.!?।।]` of `sentence_boundary_pattern`
(`।` is U+0964, listed twice in the source). -/
def isBoundaryPunct (c : Char) : Bool :=
  c == '.' || c == '!' || c == '?' || c == '।'

/-- Regex AST: empty, literal character, character class, concatenation,
ordered alternation, greedy Kleene star. -/
inductive RE where
  | eps : RE
  | chr : Char → RE
  | cls : (Char → Bool) → RE
  | seq : RE → RE → RE
  | alt : RE → RE → RE
  | star : RE → RE

/-- Concatenation of the image lists (used instead of `List.flatMap` so that
its lemmas are self-contained). -/
def catMap (f : α → List β) : List α → List β
  | [] => []
  | a :: l => f a ++ catMap f l

/-- Backtracking matcher.  `matchRE fuel re s` is the list of remainders of `s`
after a prefix matching `re`, in priority order (Python: leftmost alternative
first, greedy quantifiers prefer the longer match; the head is Python's match).
Fuel decreases at every unfolding; when exhausted the result is `[]`. -/
def matchRE : Nat → RE → List Char → List (List Char)
  | 0, _, _ => []
  | _ + 1, .eps, s => [s]
  | _ + 1, .chr _, [] => []
  | _ + 1, .chr c, a :: r => if a == c then [r] else []
  | _ + 1, .cls _, [] => []
  | _ + 1, .cls p, a :: r => if p a then [r] else []
  | f + 1, .alt a b, s => matchRE f a s ++ matchRE f b s
  | f + 1, .seq a b, s => catMap (fun r => matchRE f b r) (matchRE f a s)
  | f + 1, .star a, s =>
    catMap (fun r => matchRE f (.star a) r) (matchRE f a s) ++ [s]

/-- Fuel sufficient for any of this file's patterns on `s`: one unit per star
iteration (each consumes at least a character) plus the AST depth (< 100). -/
def reFuel (s : List Char) : Nat := s.length + 100

def seqList (l : List RE) : RE := l.foldr RE.seq RE.eps

def strLit (s : String) : RE := seqList (s.toList.map RE.chr)

/-- `a?` (greedy: prefers matching `a`). -/
def optRE (a : RE) : RE := RE.alt a RE.eps

/-- `a+` (greedy) as `a a*`. -/
def plusRE (a : RE) : RE := RE.seq a (RE.star a)

/-- `a{n}`. -/
def repExact (a : RE) : Nat → RE
  | 0 => RE.eps
  | n + 1 => RE.seq a (repExact a n)

/-- Up to `n` copies of `a`, greedy. -/
def repUpTo (a : RE) : Nat → RE
  | 0 => RE.eps
  | n + 1 => RE.alt (RE.seq a (repUpTo a n)) RE.eps

/-- `a{lo,hi}` (greedy). -/
def repRange (a : RE) (lo hi : Nat) : RE :=
  RE.seq (repExact a lo) (repUpTo a (hi - lo))

/-- Ordered alternation over a list (the `'|'.join` of the source; the empty
case never arises and is a never-matching class). -/
def altList : List RE → RE
  | [] => RE.cls (fun _ => false)
  | [r] => r
  | r :: rest => RE.alt r (altList rest)

/-- `protection_patterns['url']`: `https?://[^\s]+\.\w+`. -/
def urlRE : RE :=
  seqList [strLit (r"http"), optRE (RE.chr 's'), strLit (r"://"),
    plusRE (RE.cls (fun c => !isPySpace c)), RE.chr '.', plusRE (RE.cls isPyWord)]

/-- `protection_patterns['email']`: `[\w\.-]+@(\w\.)+\w+`.  Note that the
domain part `(\w\.)+` is one word character followed by a dot, repeated. -/
def emailRE : RE :=
  seqList [plusRE (RE.cls isEmailLocalChar), RE.chr '@',
    plusRE (seqList [RE.cls isPyWord, RE.chr '.']), plusRE (RE.cls isPyWord)]

/-- The twelve Gujarati month names of `protection_patterns['date']`. -/
def monthNames : List String :=
  [r"જાન્યુઆરી", r"ફેબ્રુઆરી", r"માર્ચ", r"એપ્રિલ", r"મે", r"જૂન",
   r"જુલાઈ", r"ઑગસ્ટ", r"સપ્ટેમ્બર", r"ઑક્ટોબર", r"નવેમ્બર", r"ડિસેમ્બર"]

/-- `protection_patterns['date']`: digits separated by dash or slash
(`\d{1,2} sep \d{1,2} sep \d{2,4}`), or `\d{1,2}\s*(month|…)+\s*\d{2,4}`. -/
def dateRE : RE :=
  RE.alt
    (seqList [repRange (RE.cls isPyDigit) 1 2, RE.cls isDashSlash,
      repRange (RE.cls isPyDigit) 1 2, RE.cls isDashSlash,
      repRange (RE.cls isPyDigit) 2 4])
    (seqList [repRange (RE.cls isPyDigit) 1 2, RE.star (RE.cls isPySpace),
      plusRE (altList (monthNames.map strLit)), RE.star (RE.cls isPySpace),
      repRange (RE.cls isPyDigit) 2 4])

/-- `protection_patterns['ellipsis']`: `\.\.\.`. -/
def ellipsisRE : RE := strLit (r"...")

/-- `protection_patterns['num_dot']`: `(?:\d+|[૦-૯]+)\.`. -/
def numDotRE : RE :=
  RE.seq (RE.alt (plusRE (RE.cls isPyDigit)) (plusRE (RE.cls isGujDigit))) (RE.chr '.')

/-- `protection_patterns['guj_matra_dot']`:
`([઀-૿]+[ા-ૌઁ-ઃ્]+)\.`. -/
def gujMatraDotRE : RE :=
  seqList [plusRE (RE.cls isGujBlock), plusRE (RE.cls isGujMatra), RE.chr '.']

/-- `self.abbreviations`, in source order. -/
def abbrevList : List String :=
  [r"Dr.", r"Mr.", r"Mrs.", r"Ms.", r"Prof.", r"Sr.", r"Jr.", r"St.", r"vs.",
   r"etc.", r"e.g.", r"i.e.", r"a.m.", r"p.m.",
   r"એલ.સી.બી.", r"પી.એસ.આઇ.", r"શ્રી.", r"શ્રીમતી.", r"કું.", r"શ્રીમ.",
   r"ડૉ.", r"પ્રો.", r"સ્વ."]

/-- The combined abbreviation alternation `(Dr\.|Mr\.|…)`. -/
def abbrRE : RE := altList (abbrevList.map strLit)

/-- `_create_placeholder`'s token for store index `n`: `__PROTECTED_<n>__`. -/
def placeholderL (n : Nat) : List Char :=
  (r"__PROTECTED_").toList ++ natDigits n ++ (r"__").toList

/-- `re.sub(pattern, self._create_placeholder, text)`: scan left to right; at
each position take the engine's match if any (head of `matchRE`), append the
matched substring to the store and emit the placeholder of its index, then
continue after the match.  A zero-width match (impossible for the patterns
here, which all consume) would substitute and copy one character, as Python
does.  Fuel: every step consumes at least one character, so `s.length + 1`
(supplied by `subPass`) is enough; on exhaustion the rest is left unchanged. -/
def subScan (re : RE) : Nat → List Char → List (List Char) → List Char × List (List Char)
  | 0, s, items => (s, items)
  | _ + 1, [], items => ([], items)
  | f + 1, c :: rest, items =>
    match (matchRE (reFuel (c :: rest)) re (c :: rest)).head? with
    | some rem =>
      if rem.length < (c :: rest).length then
        let m := (c :: rest).take ((c :: rest).length - rem.length)
        let pr := subScan re f rem (items ++ [m])
        (placeholderL items.length ++ pr.1, pr.2)
      else
        let pr := subScan re f rest (items ++ [[]])
        (placeholderL items.length ++ c :: pr.1, pr.2)
    | none =>
      let pr := subScan re f rest items
      (c :: pr.1, pr.2)

/-- One `re.sub(pattern, self._create_placeholder, text)` pass over a
(text, store) state. -/
def subPass (re : RE) (st : List Char × List (List Char)) :
    List Char × List (List Char) :=
  subScan re (st.1.length + 1) st.1 st.2

/-- `_protect_special_patterns`: the seven substitution passes in source
order (ellipsis, url, email, date, abbreviations, num_dot, guj_matra_dot),
threading the store `self.protected_items`. -/
def protectSpecialPatterns (text : List Char) (items : List (List Char)) :
    List Char × List (List Char) :=
  subPass gujMatraDotRE (subPass numDotRE (subPass abbrRE (subPass dateRE
    (subPass emailRE (subPass urlRE (subPass ellipsisRE (text, items)))))))

def startsWithL : List Char → List Char → Bool
  | [], _ => true
  | _ :: _, [] => false
  | p :: ps, c :: cs => p == c && startsWithL ps cs

/-- Whether `pat` occurs as a contiguous subsequence of the second argument. -/
def containsSub (pat : List Char) : List Char → Bool
  | [] => startsWithL pat []
  | c :: rest => startsWithL pat (c :: rest) || containsSub pat rest

/-- Python `str.replace(pat, rep)` for nonempty `pat` (all patterns replaced in
this file are placeholders, which are nonempty): replace every non-overlapping
occurrence, left to right, without rescanning `rep`.  Fuel `s.length + 1`
(supplied by `replaceAllL`) is enough since every step consumes a character. -/
def replaceGo (pat rep : List Char) : Nat → List Char → List Char
  | 0, s => s
  | _ + 1, [] => []
  | f + 1, c :: rest =>
    if startsWithL pat (c :: rest) && !pat.isEmpty then
      rep ++ replaceGo pat rep f ((c :: rest).drop pat.length)
    else
      c :: replaceGo pat rep f rest

def replaceAllL (pat rep s : List Char) : List Char :=
  replaceGo pat rep (s.length + 1) s

/-- The loop of `_restore_protected_items`:
`for idx, item in enumerate(self.protected_items): text = text.replace(…)`. -/
def restoreGo (idx : Nat) (its : List (List Char)) (text : List Char) : List Char :=
  match its with
  | [] => text
  | it :: rest => restoreGo (idx + 1) rest (replaceAllL (placeholderL idx) it text)

def restoreProtectedItems (items : List (List Char)) (text : List Char) : List Char :=
  restoreGo 0 items text

/-- Python `str.strip` / `str.rstrip` (whitespace). -/
def rstripL (s : List Char) : List Char :=
  (s.reverse.dropWhile isPySpace).reverse

def stripL (s : List Char) : List Char :=
  rstripL (s.dropWhile isPySpace)

/-- `re.split(r'([\.!?।।])\s+', text)`: cut at every boundary character
followed by at least one whitespace character, keep the captured punctuation
character as its own part, and consume the (maximal, greedy `\s+`) whitespace
run.  The result alternates content and punctuation parts, beginning and ending
with a content part.  Fuel `s.length + 1` (supplied by `reSplitBoundary`) is
enough; on exhaustion the remaining text closes the current part. -/
def splitGo : Nat → List Char → List Char → List (List Char)
  | 0, acc, s => [acc.reverse ++ s]
  | _ + 1, acc, [] => [acc.reverse]
  | f + 1, acc, c :: rest =>
    if isBoundaryPunct c && (match rest with | d :: _ => isPySpace d | [] => false) then
      acc.reverse :: [c] :: splitGo f [] (rest.dropWhile isPySpace)
    else
      splitGo f (c :: acc) rest

def reSplitBoundary (s : List Char) : List (List Char) :=
  splitGo (s.length + 1) [] s

/-- The `while i < len(parts) - 1` loop of `_split_into_sentences`: recombine
each (content, punctuation) pair, strip, restore, and keep if nonempty.  A lone
trailing part is left for the `len(parts) % 2 == 1` branch. -/
def collectSentences (items : List (List Char)) : List (List Char) → List (List Char)
  | a :: b :: rest =>
    let s := restoreProtectedItems items (stripL (a ++ b))
    if s.isEmpty then collectSentences items rest else s :: collectSentences items rest
  | _ => []

/-- `_split_into_sentences`. -/
def splitIntoSentences (items : List (List Char)) (text : List Char) :
    List (List Char) :=
  let parts := reSplitBoundary text
  let sents := collectSentences items parts
  if parts.length % 2 == 1 && !(stripL (parts.getLastD [])).isEmpty then
    let lastPart := restoreProtectedItems items (stripL (parts.getLastD []))
    if lastPart.isEmpty then sents else sents ++ [lastPart]
  else sents

/-- Python `str.split()` with no separator: whitespace-delimited words, no
empties.  `cur` is the (reversed) word being scanned. -/
def splitWSGo (cur : List Char) : List Char → List (List Char)
  | [] => if cur.isEmpty then [] else [cur.reverse]
  | c :: rest =>
    if isPySpace c then
      if cur.isEmpty then splitWSGo [] rest else cur.reverse :: splitWSGo [] rest
    else splitWSGo (c :: cur) rest

def splitWS (s : List Char) : List (List Char) := splitWSGo [] s

/-- One step of `_merge_short_sentences`: if the accepted list is nonempty and
the sentence has fewer than 3 words, graft it (rstrip + single space) onto the
last accepted sentence, else append it as a new entry. -/
def mergeStep (acc : List (List Char)) (s : List Char) : List (List Char) :=
  if acc ≠ [] ∧ (splitWS s).length < 3 then
    acc.dropLast ++ [rstripL (acc.getLastD []) ++ ' ' :: s]
  else acc ++ [s]

/-- `_merge_short_sentences`. -/
def mergeShortSentences (sentences : List (List Char)) : List (List Char) :=
  sentences.foldl mergeStep []

/-- The `tokenize` method on an instance whose `protected_items` currently
holds `_oldItems`: it first resets the store to `[]` (discarding the old
state), then chains protect → split(+restore) → merge.  Returns the sentence
list and the instance's store after the call. -/
def tokenizeMethod (_oldItems : List (List Char)) (text : List Char) :
    List (List Char) × List (List Char) :=
  let pr := protectSpecialPatterns text []
  (mergeShortSentences (splitIntoSentences pr.2 pr.1), pr.2)

/-- `tokenize` on a fresh instance, over `List Char`. -/
def tokenizeL (text : List Char) : List (List Char) :=
  (tokenizeMethod [] text).1

/-- The `raw_sentences` intermediate of `tokenize` (after splitting and
restoring, before merging). -/
def rawSentencesOf (text : List Char) : List (List Char) :=
  let pr := protectSpecialPatterns text []
  splitIntoSentences pr.2 pr.1

/-- Protection immediately followed by restoration with the populated store. -/
def protectThenRestore (text : List Char) : List Char :=
  let pr := protectSpecialPatterns text []
  restoreProtectedItems pr.2 pr.1

/-- The module-level convenience function `gujarati_sentence_tokenizer`
(fresh tokenizer instance per call), over `String`. -/
def gujaratiSentenceTokenizer (text : String) : List String :=
  ((tokenizeMethod [] text.toList).1).map List.asString

/-- `tokenize` over `String`. -/
def tokenize (text : String) : List String :=
  (tokenizeL text.toList).map List.asString

/-- Whether every match of the pattern consumes at least one character
(true for all seven protection patterns). -/
def consumesRE : RE → Bool
  | .eps => false
  | .chr _ => true
  | .cls _ => true
  | .seq a b => consumesRE a || consumesRE b
  | .alt a b => consumesRE a && consumesRE b
  | .star _ => false

/-- `MustHave g re` holds when every string matched by `re` necessarily
contains a character satisfying `g`. -/
def MustHave (g : Char → Bool) : RE → Prop
  | .eps => False
  | .chr c => g c = true
  | .cls p => ∀ c, p c = true → g c = true
  | .seq a b => MustHave g a ∨ MustHave g b
  | .alt a b => MustHave g a ∧ MustHave g b
  | .star _ => False

/-- No position of the list holds a decimal digit immediately followed by a
dot. -/
def digitDotFree : List Char → Bool
  | a :: b :: rest => !(isPyDigit a && b == '.') && digitDotFree (b :: rest)
  | _ => true

/-- The characters a placeholder token can consist of. -/
def phChar (c : Char) : Bool := (r"_PROTECTED0123456789").toList.contains c

/-- A three-line-word input containing a newline that is not adjacent to any
boundary punctuation. -/
def nlExample : List Char := (r"a b c").toList ++ '\n' :: (r"d e f").toList

/-!
General lemmas about the matcher and the pipeline stages, used by the claim
theorems below.
-/

theorem mem_of_mem_dropLast {α : Type} {l : List α} {x : α}
    (h : x ∈ l.dropLast) : x ∈ l :=
  (List.dropLast_sublist l).subset h

theorem mem_catMap {f : α → List β} {l : List α} {b : β} :
    b ∈ catMap f l ↔ ∃ a ∈ l, b ∈ f a := by
  induction l with
  | nil => simp [catMap]
  | cons a l ih => simp [catMap, ih]

theorem catMap_eq_nil {f : α → List β} {l : List α}
    (h : ∀ a ∈ l, f a = []) : catMap f l = [] := by
  induction l with
  | nil => rfl
  | cons a l ih =>
    simp [catMap, h a (by simp)]
    exact ih fun a ha => h a (by simp [ha])

theorem matchRE_suffix :
    ∀ (f : Nat) (re : RE) (s r : List Char), r ∈ matchRE f re s → r.IsSuffix s := by
  intro f
  induction f with
  | zero => intro re s r h; simp [matchRE] at h
  | succ f ih =>
    intro re s r h
    cases re with
    | eps =>
      simp [matchRE] at h
      simp [h]
    | chr c =>
      cases s with
      | nil => simp [matchRE] at h
      | cons a t =>
        simp only [matchRE] at h
        split at h
        · simp at h; simp [h, List.suffix_cons]
        · simp at h
    | cls p =>
      cases s with
      | nil => simp [matchRE] at h
      | cons a t =>
        simp only [matchRE] at h
        split at h
        · simp at h; simp [h, List.suffix_cons]
        · simp at h
    | alt a b =>
      simp only [matchRE, List.mem_append] at h
      rcases h with h | h
      · exact ih a s r h
      · exact ih b s r h
    | seq a b =>
      simp only [matchRE] at h
      rcases mem_catMap.mp h with ⟨r₁, h₁, h₂⟩
      exact (ih b r₁ r h₂).trans (ih a s r₁ h₁)
    | star a =>
      simp only [matchRE, List.mem_append] at h
      rcases h with h | h
      · rcases mem_catMap.mp h with ⟨r₁, h₁, h₂⟩
        exact (ih (RE.star a) r₁ r h₂).trans (ih a s r₁ h₁)
      · simp at h; simp [h]

theorem matchRE_consuming :
    ∀ (f : Nat) (re : RE), consumesRE re = true →
      ∀ (s r : List Char), r ∈ matchRE f re s → r.length < s.length := by
  intro f
  induction f with
  | zero => intro re _ s r h; simp [matchRE] at h
  | succ f ih =>
    intro re hc s r h
    cases re with
    | eps => simp [consumesRE] at hc
    | chr c =>
      cases s with
      | nil => simp [matchRE] at h
      | cons a t =>
        simp only [matchRE] at h
        split at h
        · simp at h; simp [h, Nat.lt_succ_self]
        · simp at h
    | cls p =>
      cases s with
      | nil => simp [matchRE] at h
      | cons a t =>
        simp only [matchRE] at h
        split at h
        · simp at h; simp [h, Nat.lt_succ_self]
        · simp at h
    | alt a b =>
      simp only [consumesRE, Bool.and_eq_true] at hc
      simp only [matchRE, List.mem_append] at h
      rcases h with h | h
      · exact ih a hc.1 s r h
      · exact ih b hc.2 s r h
    | seq a b =>
      simp only [consumesRE, Bool.or_eq_true] at hc
      simp only [matchRE] at h
      rcases mem_catMap.mp h with ⟨r₁, h₁, h₂⟩
      rcases hc with hc | hc
      · have h1 := ih a hc s r₁ h₁
        have h2 := (matchRE_suffix f b r₁ r h₂).length_le
        omega
      · have h1 := (matchRE_suffix f a s r₁ h₁).length_le
        have h2 := ih b hc r₁ r h₂
        omega
    | star a => simp [consumesRE] at hc

theorem matchRE_mustHave {g : Char → Bool} :
    ∀ (f : Nat) (re : RE), MustHave g re →
      ∀ (s : List Char), (∀ c ∈ s, g c = false) → matchRE f re s = [] := by
  intro f
  induction f with
  | zero => intro re _ s _; rfl
  | succ f ih =>
    intro re hm s hs
    cases re with
    | eps => simp [MustHave] at hm
    | chr c =>
      cases s with
      | nil => rfl
      | cons a t =>
        simp only [matchRE]
        have : (a == c) = false := by
          by_cases hac : a = c
          · subst hac
            have := hs a (by simp)
            simp only [MustHave] at hm
            rw [hm] at this; cases this
          · simp [hac]
        simp [this]
    | cls p =>
      cases s with
      | nil => rfl
      | cons a t =>
        simp only [matchRE]
        have : p a = false := by
          by_cases hpa : p a = true
          · have := hm a hpa
            rw [hs a (by simp)] at this; cases this
          · simp at hpa; exact hpa
        simp [this]
    | alt a b =>
      simp only [MustHave] at hm
      simp only [matchRE]
      rw [ih a hm.1 s hs, ih b hm.2 s hs]
      rfl
    | seq a b =>
      simp only [MustHave] at hm
      simp only [matchRE]
      rcases hm with hm | hm
      · rw [ih a hm s hs]; rfl
      · apply catMap_eq_nil
        intro r hr
        exact ih b hm r fun c hc => hs c ((matchRE_suffix f a s r hr).subset hc)
    | star a => simp [MustHave] at hm

/-- g := is a dot -/
theorem mh_ellipsis : MustHave (fun c => c == '.') ellipsisRE := by
  simp [MustHave, ellipsisRE, strLit, seqList]

theorem mh_url : MustHave (fun c => c == '.') urlRE := by
  simp [MustHave, urlRE, strLit, seqList, plusRE, optRE]

theorem mh_email : MustHave (fun c => c == '.') emailRE := by
  simp [MustHave, emailRE, strLit, seqList, plusRE]

theorem mh_date : MustHave isPyDigit dateRE := by
  simp [MustHave, dateRE, seqList, repRange, repExact, repUpTo, plusRE]

theorem mh_abbr : MustHave (fun c => c == '.') abbrRE := by
  simp [MustHave, abbrRE, abbrevList, altList, strLit, seqList]

theorem mh_numDot : MustHave (fun c => c == '.') numDotRE := by
  simp [MustHave, numDotRE, plusRE]

theorem mh_matraDot : MustHave (fun c => c == '.') gujMatraDotRE := by
  simp [MustHave, gujMatraDotRE, seqList, plusRE]

theorem subScan_no_match (re : RE) :
    ∀ (f : Nat) (s : List Char) (items : List (List Char)),
      (∀ s' : List Char, s'.IsSuffix s → matchRE (reFuel s') re s' = []) →
      subScan re f s items = (s, items) := by
  intro f
  induction f with
  | zero => intro s items _; rfl
  | succ f ih =>
    intro s items H
    cases s with
    | nil => rfl
    | cons c rest =>
      have h0 : matchRE (reFuel (c :: rest)) re (c :: rest) = [] :=
        H (c :: rest) (List.suffix_refl _)
      simp only [subScan, h0, List.head?_nil]
      rw [ih rest items fun s' hs => H s' (hs.trans (List.suffix_cons c rest))]

theorem splitGo_no_punct :
    ∀ (f : Nat) (acc s : List Char),
      (∀ c ∈ s, isBoundaryPunct c = false) →
      splitGo f acc s = [acc.reverse ++ s] := by
  intro f
  induction f with
  | zero => intro acc s _; rfl
  | succ f ih =>
    intro acc s hs
    cases s with
    | nil => simp [splitGo]
    | cons c rest =>
      simp only [splitGo, hs c (by simp), Bool.false_and, Bool.false_eq_true, if_false]
      rw [ih (c :: acc) rest fun d hd => hs d (by simp [hd])]
      simp

theorem collect_ne_nil :
    ∀ (n : Nat) (parts : List (List Char)), parts.length ≤ n →
      ∀ (items : List (List Char)) (x : List Char),
        x ∈ collectSentences items parts → x ≠ [] := by
  intro n
  induction n with
  | zero =>
    intro parts hl items x hx
    rcases parts with _ | ⟨a, rest⟩
    · simp [collectSentences] at hx
    · simp at hl
  | succ n ih =>
    intro parts hl items x hx
    rcases parts with _ | ⟨a, _ | ⟨b, rest⟩⟩
    · simp [collectSentences] at hx
    · simp [collectSentences] at hx
    · simp only [collectSentences] at hx
      split at hx
      · exact ih rest (by simp at hl; omega) items x hx
      · rcases List.mem_cons.mp hx with h | h
        · subst h
          rename_i hemp
          simp [List.isEmpty_iff] at hemp
          exact hemp
        · exact ih rest (by simp at hl; omega) items x h

theorem mem_splitIntoSentences_ne_nil (items : List (List Char)) (text : List Char) :
    ∀ x ∈ splitIntoSentences items text, x ≠ [] := by
  intro x hx
  simp only [splitIntoSentences] at hx
  split at hx
  case isTrue h1 =>
    split at hx
    case isTrue h2 => exact collect_ne_nil _ _ le_rfl items x hx
    case isFalse h2 =>
      rcases List.mem_append.mp hx with h | h
      · exact collect_ne_nil _ _ le_rfl items x h
      · simp at h
        subst h
        simpa [List.isEmpty_iff] using h2
  case isFalse h1 => exact collect_ne_nil _ _ le_rfl items x hx

theorem splitWSGo_all_space :
    ∀ (w cur : List Char), (∀ c ∈ w, isPySpace c = true) →
      splitWSGo cur w = if cur.isEmpty then [] else [cur.reverse] := by
  intro w
  induction w with
  | nil => intro cur _; rfl
  | cons c w ih =>
    intro cur hw
    have hrec := ih [] fun d hd => hw d (by simp [hd])
    by_cases hcur : cur.isEmpty <;>
      simp [splitWSGo, hw c (by simp), hcur, hrec]

theorem splitWSGo_append_space :
    ∀ (x y cur : List Char),
      splitWSGo cur (x ++ ' ' :: y) = splitWSGo cur x ++ splitWSGo [] y := by
  intro x
  induction x with
  | nil =>
    intro y cur
    simp only [List.nil_append, splitWSGo]
    have : isPySpace ' ' = true := by decide
    rw [this]
    by_cases hcur : cur.isEmpty <;> simp [hcur]
  | cons c x ih =>
    intro y cur
    simp only [List.cons_append, splitWSGo]
    by_cases hc : isPySpace c
    · simp only [hc, if_true]
      by_cases hcur : cur.isEmpty <;> simp [hcur, ih]
    · simp only [Bool.not_eq_true] at hc
      simp [hc, ih]

theorem splitWSGo_trailing_space :
    ∀ (x w cur : List Char), (∀ c ∈ w, isPySpace c = true) →
      splitWSGo cur (x ++ w) = splitWSGo cur x := by
  intro x
  induction x with
  | nil =>
    intro w cur hw
    rw [List.nil_append, splitWSGo_all_space w cur hw]
    rfl
  | cons c x ih =>
    intro w cur hw
    simp only [List.cons_append, splitWSGo]
    by_cases hc : isPySpace c
    · simp only [hc, if_true]
      by_cases hcur : cur.isEmpty <;> simp [hcur, ih _ _ hw]
    · simp only [Bool.not_eq_true] at hc
      simp [hc, ih _ _ hw]

theorem splitWS_rstrip (a : List Char) : splitWS (rstripL a) = splitWS a := by
  have hdecomp : rstripL a ++ (a.reverse.takeWhile isPySpace).reverse = a := by
    rw [rstripL, ← List.reverse_append, List.takeWhile_append_dropWhile, List.reverse_reverse]
  conv_rhs => rw [← hdecomp]
  rw [splitWS, splitWS, splitWSGo_trailing_space]
  intro c hc
  exact List.mem_takeWhile_imp (List.mem_reverse.mp hc)

theorem splitWS_graft (a s : List Char) :
    splitWS (rstripL a ++ ' ' :: s) = splitWS a ++ splitWS s := by
  rw [splitWS, splitWSGo_append_space, ← splitWS, ← splitWS, splitWS_rstrip]

theorem mergeStep_invariant (acc : List (List Char)) (s : List Char)
    (hs : s ≠ [])
    (h1 : ∀ x ∈ acc, x ≠ []) (h2 : ∀ x ∈ acc.drop 1, 3 ≤ (splitWS x).length) :
    (∀ x ∈ mergeStep acc s, x ≠ []) ∧
    (∀ x ∈ (mergeStep acc s).drop 1, 3 ≤ (splitWS x).length) := by
  rw [mergeStep]
  split
  case isTrue hc =>
    rcases acc with _ | ⟨a, acc'⟩
    · exact absurd rfl hc.1
    · constructor
      · intro x hx
        rcases List.mem_append.mp hx with h | h
        · exact h1 x (mem_of_mem_dropLast h)
        · simp at h
          subst h
          simp
      · rcases acc' with _ | ⟨b, acc''⟩
        · intro x hx
          simp at hx
        · intro x hx
          have hdl : (a :: b :: acc'').dropLast = a :: (b :: acc'').dropLast := rfl
          rw [hdl, List.cons_append, List.drop_one, List.tail_cons] at hx
          rcases List.mem_append.mp hx with h | h
          · exact h2 x (by
              simp only [List.drop_one, List.tail_cons]
              exact mem_of_mem_dropLast h)
          · simp at h
            subst h
            rw [splitWS_graft, List.length_append,
              List.getLast?_eq_getLast (b :: acc'') (by simp), Option.getD_some]
            have hmem : (b :: acc'').getLast (by simp) ∈ (a :: b :: acc'').drop 1 := by
              simp only [List.drop_one, List.tail_cons]
              exact List.getLast_mem _
            have := h2 _ hmem
            omega
  case isFalse hc =>
    rw [Classical.not_and_iff_or_not_not] at hc
    rcases acc with _ | ⟨a, acc'⟩
    · constructor
      · intro x hx
        simp at hx
        subst hx
        exact hs
      · intro x hx
        simp at hx
    · have hw : 3 ≤ (splitWS s).length := by
        rcases hc with hc | hc
        · simp at hc
        · omega
      constructor
      · intro x hx
        rcases List.mem_append.mp hx with h | h
        · exact h1 x h
        · simp at h
          subst h
          exact hs
      · intro x hx
        rw [List.cons_append, List.drop_one, List.tail_cons] at hx
        rcases List.mem_append.mp hx with h | h
        · exact h2 x (by simpa using h)
        · simp at h
          subst h
          exact hw

theorem foldl_merge_invariant :
    ∀ (ss acc : List (List Char)),
      (∀ x ∈ ss, x ≠ []) →
      (∀ x ∈ acc, x ≠ []) → (∀ x ∈ acc.drop 1, 3 ≤ (splitWS x).length) →
      (∀ x ∈ ss.foldl mergeStep acc, x ≠ []) ∧
      (∀ x ∈ (ss.foldl mergeStep acc).drop 1, 3 ≤ (splitWS x).length) := by
  intro ss
  induction ss with
  | nil => intro acc _ h1 h2; exact ⟨h1, h2⟩
  | cons s ss ih =>
    intro acc hss h1 h2
    rw [List.foldl_cons]
    have step := mergeStep_invariant acc s (hss s (by simp)) h1 h2
    exact ih _ (fun x hx => hss x (by simp [hx])) step.1 step.2

theorem natDigitsAux_chars :
    ∀ (f n : Nat) (c : Char), c ∈ natDigitsAux f n → ∃ d < 10, c = Char.ofNat (48 + d) := by
  intro f
  induction f with
  | zero => intro n c hc; simp [natDigitsAux] at hc
  | succ f ih =>
    intro n c hc
    rw [natDigitsAux] at hc
    split at hc
    · simp at hc
      exact ⟨n, by omega, hc⟩
    · rcases List.mem_append.mp hc with h | h
      · exact ih _ c h
      · simp at h
        exact ⟨n % 10, by omega, h⟩

theorem placeholderL_chars : ∀ (n : Nat) (c : Char), c ∈ placeholderL n → phChar c = true := by
  have h1 : ∀ x ∈ (r"__PROTECTED_").toList, phChar x = true := by decide
  have h2 : ∀ x ∈ (r"__").toList, phChar x = true := by decide
  intro n c hc
  rw [placeholderL] at hc
  rcases List.mem_append.mp hc with h | h
  · rcases List.mem_append.mp h with h | h
    · exact h1 c h
    · rcases natDigitsAux_chars _ _ c h with ⟨d, hd, rfl⟩
      interval_cases d <;> decide
  · exact h2 c h

theorem mem_dropWhileL {p : Char → Bool} :
    ∀ (l : List Char) (c : Char), c ∈ l.dropWhile p → c ∈ l := by
  intro l
  induction l with
  | nil => intro c hc; simp at hc
  | cons a l ih =>
    intro c hc
    rw [List.dropWhile_cons] at hc
    split at hc
    · exact List.mem_cons_of_mem a (ih c hc)
    · exact hc

theorem stripL_subset (s : List Char) (c : Char) : c ∈ stripL s → c ∈ s := by
  intro hc
  rw [stripL, rstripL] at hc
  rw [List.mem_reverse] at hc
  have := mem_dropWhileL _ _ hc
  rw [List.mem_reverse] at this
  exact mem_dropWhileL _ _ this

theorem rstripL_subset (s : List Char) (c : Char) : c ∈ rstripL s → c ∈ s := by
  intro hc
  rw [rstripL, List.mem_reverse] at hc
  have := mem_dropWhileL _ _ hc
  rwa [List.mem_reverse] at this

theorem subScan_chars {O : Char → Prop} (hph : ∀ c, phChar c = true → O c) (re : RE) :
    ∀ (f : Nat) (s : List Char) (items : List (List Char)),
      (∀ c ∈ s, O c) → (∀ it ∈ items, ∀ c ∈ it, O c) →
      (∀ c ∈ (subScan re f s items).1, O c) ∧
      (∀ it ∈ (subScan re f s items).2, ∀ c ∈ it, O c) := by
  intro f
  induction f with
  | zero => intro s items hs hit; exact ⟨hs, hit⟩
  | succ f ih =>
    intro s items hs hit
    cases s with
    | nil => exact ⟨by simp [subScan], by simpa [subScan] using hit⟩
    | cons a rest =>
      cases hm : (matchRE (reFuel (a :: rest)) re (a :: rest)).head? with
      | none =>
        simp only [subScan, hm]
        have hr := ih rest items (fun c hc => hs c (by simp [hc])) hit
        refine ⟨fun c hc => ?_, hr.2⟩
        rcases List.mem_cons.mp hc with h | h
        · subst h; exact hs c (by simp)
        · exact hr.1 c h
      | some rem =>
        simp only [subScan, hm]
        have hrem : ∀ c ∈ rem, O c := by
          intro c hc
          have hsuf := matchRE_suffix _ re (a :: rest) rem (List.mem_of_mem_head? hm)
          exact hs c (hsuf.subset hc)
        have hm' : ∀ it ∈ items ++ [(a :: rest).take ((a :: rest).length - rem.length)],
            ∀ c ∈ it, O c := by
          intro it hitm c hc
          rcases List.mem_append.mp hitm with h | h
          · exact hit it h c hc
          · simp at h
            subst h
            exact hs c (List.take_subset _ _ hc)
        have hm'' : ∀ it ∈ items ++ [([] : List Char)], ∀ c ∈ it, O c := by
          intro it hitm c hc
          rcases List.mem_append.mp hitm with h | h
          · exact hit it h c hc
          · simp at h
            subst h
            simp at hc
        split
        · have hr := ih rem _ hrem hm'
          refine ⟨fun c hc => ?_, hr.2⟩
          rcases List.mem_append.mp hc with h | h
          · exact hph c (placeholderL_chars _ c h)
          · exact hr.1 c h
        · have hr := ih rest _ (fun c hc => hs c (by simp [hc])) hm''
          refine ⟨fun c hc => ?_, hr.2⟩
          rcases List.mem_append.mp hc with h | h
          · exact hph c (placeholderL_chars _ c h)
          · rcases List.mem_cons.mp h with h' | h'
            · subst h'; exact hs c (by simp)
            · exact hr.1 c h'

theorem replaceGo_chars {O : Char → Prop} (pat rep : List Char)
    (hrep : ∀ c ∈ rep, O c) :
    ∀ (f : Nat) (s : List Char), (∀ c ∈ s, O c) →
      ∀ c ∈ replaceGo pat rep f s, O c := by
  intro f
  induction f with
  | zero => intro s hs; exact hs
  | succ f ih =>
    intro s hs c hc
    cases s with
    | nil => simp [replaceGo] at hc
    | cons a rest =>
      rw [replaceGo] at hc
      split at hc
      · rcases List.mem_append.mp hc with h | h
        · exact hrep c h
        · exact ih _ (fun d hd => hs d (List.drop_subset _ _ hd)) c h
      · rcases List.mem_cons.mp hc with h | h
        · subst h; exact hs c (by simp)
        · exact ih _ (fun d hd => hs d (by simp [hd])) c h

theorem restoreGo_chars {O : Char → Prop} :
    ∀ (its : List (List Char)) (idx : Nat) (text : List Char),
      (∀ it ∈ its, ∀ c ∈ it, O c) → (∀ c ∈ text, O c) →
      ∀ c ∈ restoreGo idx its text, O c := by
  intro its
  induction its with
  | nil => intro idx text _ ht; exact ht
  | cons it rest ih =>
    intro idx text hits ht
    rw [restoreGo]
    exact ih _ _ (fun x hx => hits x (by simp [hx]))
      (replaceGo_chars _ _ (hits it (by simp)) _ _ ht)

theorem splitGo_chars {O : Char → Prop} :
    ∀ (f : Nat) (acc s : List Char), (∀ c ∈ acc, O c) → (∀ c ∈ s, O c) →
      ∀ part ∈ splitGo f acc s, ∀ c ∈ part, O c := by
  intro f
  induction f with
  | zero =>
    intro acc s hacc hs part hp c hc
    simp [splitGo] at hp
    subst hp
    rcases List.mem_append.mp hc with h | h
    · exact hacc c (List.mem_reverse.mp h)
    · exact hs c h
  | succ f ih =>
    intro acc s hacc hs part hp c hc
    cases s with
    | nil =>
      simp [splitGo] at hp
      subst hp
      exact hacc c (List.mem_reverse.mp hc)
    | cons a rest =>
      simp only [splitGo] at hp
      split at hp
      · rcases List.mem_cons.mp hp with h | h
        · subst h
          exact hacc c (List.mem_reverse.mp hc)
        · rcases List.mem_cons.mp h with h' | h'
          · subst h'
            simp at hc
            subst hc
            exact hs c (by simp)
          · exact ih [] (rest.dropWhile isPySpace) (by simp)
              (fun d hd => hs d (by simp [mem_dropWhileL _ _ hd])) part h' c hc
      · exact ih (a :: acc) rest
          (fun d hd => by
            rcases List.mem_cons.mp hd with h' | h'
            · subst h'; exact hs d (by simp)
            · exact hacc d h')
          (fun d hd => hs d (by simp [hd])) part hp c hc

theorem collectSentences_chars {O : Char → Prop} :
    ∀ (n : Nat) (parts : List (List Char)), parts.length ≤ n →
      ∀ (items : List (List Char)),
        (∀ it ∈ items, ∀ c ∈ it, O c) →
        (∀ part ∈ parts, ∀ c ∈ part, O c) →
        ∀ x ∈ collectSentences items parts, ∀ c ∈ x, O c := by
  intro n
  induction n with
  | zero =>
    intro parts hl items _ _ x hx
    rcases parts with _ | ⟨a, rest⟩
    · simp [collectSentences] at hx
    · simp at hl
  | succ n ih =>
    intro parts hl items hits hparts x hx
    rcases parts with _ | ⟨a, _ | ⟨b, rest⟩⟩
    · simp [collectSentences] at hx
    · simp [collectSentences] at hx
    · simp only [collectSentences] at hx
      have hrest : ∀ part ∈ rest, ∀ c ∈ part, O c :=
        fun p hp => hparts p (by simp [hp])
      have hlen : rest.length ≤ n := by simp at hl; omega
      have hab : ∀ c ∈ restoreProtectedItems items (stripL (a ++ b)), O c := by
        apply restoreGo_chars _ _ _ hits
        intro c hc
        have := stripL_subset _ c hc
        rcases List.mem_append.mp this with h | h
        · exact hparts a (by simp) c h
        · exact hparts b (by simp) c h
      split at hx
      · exact ih rest hlen items hits hrest x hx
      · rcases List.mem_cons.mp hx with h | h
        · subst h; exact hab
        · exact ih rest hlen items hits hrest x h

theorem splitIntoSentences_chars {O : Char → Prop}
    (items : List (List Char)) (text : List Char)
    (hits : ∀ it ∈ items, ∀ c ∈ it, O c) (ht : ∀ c ∈ text, O c) :
    ∀ x ∈ splitIntoSentences items text, ∀ c ∈ x, O c := by
  have hparts : ∀ part ∈ reSplitBoundary text, ∀ c ∈ part, O c :=
    splitGo_chars _ [] text (by simp) ht
  have hcoll : ∀ x ∈ collectSentences items (reSplitBoundary text), ∀ c ∈ x, O c :=
    collectSentences_chars _ _ le_rfl items hits hparts
  have hlastp : ∀ c ∈ (reSplitBoundary text).getLast?.getD [], O c := by
    intro c hc
    rcases hgl : (reSplitBoundary text).getLast? with _ | p
    · rw [hgl] at hc
      simp at hc
    · rw [hgl] at hc
      exact hparts p (List.mem_of_mem_getLast? hgl) c hc
  have hlast : ∀ c ∈ restoreProtectedItems items (stripL ((reSplitBoundary text).getLast?.getD [])), O c := by
    apply restoreGo_chars _ _ _ hits
    intro c hc
    exact hlastp c (stripL_subset _ c hc)
  intro x hx
  simp only [splitIntoSentences] at hx
  split at hx
  · split at hx
    · exact hcoll x hx
    · rcases List.mem_append.mp hx with h | h
      · exact hcoll x h
      · simp at h
        subst h
        exact hlast
  · exact hcoll x hx

theorem mergeFold_chars {O : Char → Prop} (hsp : O ' ') :
    ∀ (ss acc : List (List Char)),
      (∀ x ∈ ss, ∀ c ∈ x, O c) → (∀ x ∈ acc, ∀ c ∈ x, O c) →
      ∀ x ∈ ss.foldl mergeStep acc, ∀ c ∈ x, O c := by
  intro ss
  induction ss with
  | nil => intro acc _ hacc; exact hacc
  | cons s ss ih =>
    intro acc hss hacc
    rw [List.foldl_cons]
    apply ih _ (fun x hx => hss x (by simp [hx]))
    intro x hx
    rw [mergeStep] at hx
    split at hx
    · rcases List.mem_append.mp hx with h | h
      · exact hacc x (mem_of_mem_dropLast h)
      · simp at h
        subst h
        intro c hc
        rcases List.mem_append.mp hc with h' | h'
        · have := rstripL_subset _ c h'
          have hgl : ∀ c ∈ acc.getLast?.getD [], O c := by
            intro d hd
            rcases hg : acc.getLast? with _ | p
            · rw [hg] at hd
              simp at hd
            · rw [hg] at hd
              exact hacc p (List.mem_of_mem_getLast? hg) d hd
          exact hgl c this
        · rcases List.mem_cons.mp h' with h'' | h''
          · subst h''; exact hsp
          · exact hss s (by simp) c h''
    · rcases List.mem_append.mp hx with h | h
      · exact hacc x h
      · simp at h
        subst h
        exact hss x (by simp)

theorem protect_chars {O : Char → Prop} (hph : ∀ c, phChar c = true → O c)
    (text : List Char) (ht : ∀ c ∈ text, O c) :
    (∀ c ∈ (protectSpecialPatterns text []).1, O c) ∧
    (∀ it ∈ (protectSpecialPatterns text []).2, ∀ c ∈ it, O c) := by
  rw [protectSpecialPatterns]
  have p0 : (∀ c ∈ (subPass ellipsisRE (text, [])).1, O c) ∧
      (∀ it ∈ (subPass ellipsisRE (text, [])).2, ∀ c ∈ it, O c) := by
    rw [subPass]
    exact subScan_chars hph _ _ _ _ ht (by simp)
  have pstep : ∀ (re : RE) (st : List Char × List (List Char)),
      ((∀ c ∈ st.1, O c) ∧ (∀ it ∈ st.2, ∀ c ∈ it, O c)) →
      (∀ c ∈ (subPass re st).1, O c) ∧ (∀ it ∈ (subPass re st).2, ∀ c ∈ it, O c) := by
    intro re st hst
    rw [subPass]
    exact subScan_chars hph _ _ _ _ hst.1 hst.2
  exact pstep _ _ (pstep _ _ (pstep _ _ (pstep _ _ (pstep _ _ (pstep _ _ p0)))))

theorem tokenizeL_chars {O : Char → Prop} (hph : ∀ c, phChar c = true → O c)
    (hsp : O ' ') (text : List Char) (ht : ∀ c ∈ text, O c) :
    ∀ x ∈ tokenizeL text, ∀ c ∈ x, O c := by
  rw [tokenizeL, tokenizeMethod]
  have hp := protect_chars hph text ht
  exact mergeFold_chars hsp _ []
    (splitIntoSentences_chars _ _ hp.2 hp.1) (by simp)

theorem ddf_cons_iff (c : Char) (s : List Char) :
    digitDotFree (c :: s) = true ↔
      (digitDotFree s = true ∧ (s.head? = some '.' → isPyDigit c = false)) := by
  cases s with
  | nil => simp [digitDotFree]
  | cons b rest =>
    simp only [digitDotFree, Bool.and_eq_true, Bool.not_eq_true', Bool.and_eq_false_iff,
      List.head?_cons, Option.some.injEq]
    constructor
    · rintro ⟨h1, h2⟩
      refine ⟨h2, fun hb => ?_⟩
      rcases h1 with h | h
      · exact h
      · simp [hb] at h
    · rintro ⟨h2, h1⟩
      refine ⟨?_, h2⟩
      by_cases hb : b = '.'
      · exact Or.inl (h1 hb)
      · right
        simp [hb]

theorem ddf_append_right :
    ∀ (x y : List Char), digitDotFree (x ++ y) = true → digitDotFree y = true := by
  intro x
  induction x with
  | nil => intro y h; exact h
  | cons c x ih =>
    intro y h
    rw [List.cons_append, ddf_cons_iff] at h
    exact ih y h.1

theorem ddf_suffix {s t : List Char} (h : digitDotFree s = true) (hsuf : t.IsSuffix s) :
    digitDotFree t = true := by
  rcases hsuf with ⟨pre, rfl⟩
  exact ddf_append_right pre t h

theorem ddf_of_not_dot : ∀ (s : List Char), '.' ∉ s → digitDotFree s = true := by
  intro s
  induction s with
  | nil => intro _; rfl
  | cons c s ih =>
    intro h
    rw [ddf_cons_iff]
    refine ⟨ih fun hd => h (by simp [hd]), fun hh => ?_⟩
    exfalso
    exact h (by simp [List.mem_of_mem_head? hh])

theorem ddf_append_left_safe :
    ∀ (x y : List Char), '.' ∉ x →
      (∀ d, x.getLast? = some d → isPyDigit d = false) →
      digitDotFree y = true → digitDotFree (x ++ y) = true := by
  intro x
  induction x with
  | nil => intro y _ _ hy; exact hy
  | cons c x ih =>
    intro y hdot hlast hy
    rw [List.cons_append, ddf_cons_iff]
    constructor
    · apply ih y (fun hd => hdot (by simp [hd])) _ hy
      intro d hd
      apply hlast d
      rw [List.getLast?_cons, hd]
      cases x <;> simp_all [List.getLast?_cons]
    · intro hh
      cases x with
      | nil =>
        exact hlast c rfl
      | cons e x' =>
        exfalso
        simp only [List.cons_append, List.head?_cons, Option.some.injEq] at hh
        exact hdot (by simp [hh])

theorem phChar_not_dot : ∀ (n : Nat), '.' ∉ placeholderL n := by
  intro n hmem
  have := placeholderL_chars n '.' hmem
  revert this
  decide

theorem placeholderL_head (n : Nat) : (placeholderL n).head? = some '_' := by
  rw [placeholderL]
  rfl

theorem placeholderL_last (n : Nat) :
    ∀ d, (placeholderL n).getLast? = some d → isPyDigit d = false := by
  intro d hd
  have : (placeholderL n).getLast? = some '_' := by
    rw [placeholderL, List.append_assoc]
    rw [show ((r"__").toList : List Char) = ['_'] ++ ['_'] from rfl]
    rw [← List.append_assoc, ← List.append_assoc, List.getLast?_concat]
  rw [this] at hd
  simp at hd
  subst hd
  decide

theorem subScan_head (re : RE) :
    ∀ (f : Nat) (s : List Char) (items : List (List Char)),
      (subScan re f s items).1.head? = s.head? ∨
      (subScan re f s items).1.head? = some '_' := by
  intro f s items
  cases f with
  | zero => exact Or.inl rfl
  | succ f =>
    cases s with
    | nil => exact Or.inl rfl
    | cons a rest =>
      cases hm : (matchRE (reFuel (a :: rest)) re (a :: rest)).head? with
      | none =>
        simp only [subScan, hm]
        exact Or.inl rfl
      | some rem =>
        simp only [subScan, hm]
        split
        · right
          rw [List.head?_append_of_ne_nil]
          · exact placeholderL_head _
          · simp [placeholderL]
        · right
          rw [List.head?_append_of_ne_nil]
          · exact placeholderL_head _
          · simp [placeholderL]

theorem matchRE_cls_false {p : Char → Bool} {a : Char} (t : List Char)
    (ha : p a = false) : ∀ (f : Nat), matchRE f (RE.cls p) (a :: t) = [] := by
  intro f
  cases f with
  | zero => rfl
  | succ f => simp [matchRE, ha]

theorem numDot_matches (f : Nat) (c : Char) (r : List Char) (hc : isPyDigit c = true) :
    matchRE (f + 4) numDotRE (c :: '.' :: r) ≠ [] := by
  simp only [numDotRE, plusRE, matchRE, hc, if_true, catMap, List.append_nil, List.nil_append]
  rw [matchRE_cls_false _ (by decide : isPyDigit '.' = false) f]
  simp [catMap, matchRE]

theorem subScan_numDot_ddf :
    ∀ (f : Nat) (s : List Char) (items : List (List Char)), s.length < f →
      digitDotFree (subScan numDotRE f s items).1 = true := by
  intro f
  induction f with
  | zero => intro s items hl; omega
  | succ f ih =>
    intro s items hl
    cases s with
    | nil => simp [subScan, digitDotFree]
    | cons a rest =>
      cases hm : (matchRE (reFuel (a :: rest)) numDotRE (a :: rest)).head? with
      | none =>
        simp only [subScan, hm]
        rw [ddf_cons_iff]
        refine ⟨ih rest items (by simp at hl; omega), fun hh => ?_⟩
        rcases subScan_head numDotRE f rest items with hsh | hsh
        · rw [hsh] at hh
          cases rest with
          | nil => simp at hh
          | cons b r' =>
            simp only [List.head?_cons, Option.some.injEq] at hh
            subst hh
            by_contra hdig
            rw [Bool.not_eq_false] at hdig
            have hfuel : reFuel (a :: '.' :: r') = (r'.length + 98) + 4 := by
              simp [reFuel]
            have hne := numDot_matches (r'.length + 98) a r' hdig
            rw [← hfuel] at hne
            rw [List.head?_eq_none_iff] at hm
            exact hne hm
        · rw [hsh] at hh
          simp at hh
      | some rem =>
        simp only [subScan, hm]
        split
        case isTrue hlt =>
          apply ddf_append_left_safe _ _ (phChar_not_dot _) (placeholderL_last _)
          apply ih
          simp at hl
          simp at hlt
          omega
        case isFalse hlt =>
          exfalso
          have hmem := List.mem_of_mem_head? hm
          have := matchRE_consuming _ numDotRE (by decide) _ _ hmem
          exact hlt this

theorem subScan_preserves_ddf (re : RE) (hcons : consumesRE re = true) :
    ∀ (f : Nat) (s : List Char) (items : List (List Char)),
      digitDotFree s = true →
      digitDotFree (subScan re f s items).1 = true := by
  intro f
  induction f with
  | zero => intro s items hs; exact hs
  | succ f ih =>
    intro s items hs
    cases s with
    | nil => simp [subScan, digitDotFree]
    | cons a rest =>
      cases hm : (matchRE (reFuel (a :: rest)) re (a :: rest)).head? with
      | none =>
        simp only [subScan, hm]
        rw [ddf_cons_iff]
        have hsc := ddf_cons_iff a rest |>.mp hs
        refine ⟨ih rest items hsc.1, fun hh => ?_⟩
        rcases subScan_head re f rest items with hsh | hsh
        · rw [hsh] at hh
          exact hsc.2 hh
        · rw [hsh] at hh
          simp at hh
      | some rem =>
        simp only [subScan, hm]
        split
        case isTrue hlt =>
          apply ddf_append_left_safe _ _ (phChar_not_dot _) (placeholderL_last _)
          exact ih _ _ (ddf_suffix hs
            (matchRE_suffix _ re _ _ (List.mem_of_mem_head? hm)))
        case isFalse hlt =>
          exfalso
          exact hlt (matchRE_consuming _ re hcons _ _ (List.mem_of_mem_head? hm))

theorem protect_digitDotFree :
    ∀ (t : List Char) (its : List (List Char)),
      digitDotFree (protectSpecialPatterns t its).1 = true := by
  intro t its
  rw [protectSpecialPatterns]
  rw [subPass]
  apply subScan_preserves_ddf gujMatraDotRE (by decide)
  rw [subPass]
  exact subScan_numDot_ddf _ _ _ (Nat.lt_succ_self _)


/-- Claim C1 (counterexample): `tokenize` on the URL example does NOT return
two sentences: the splitter produces two candidates, but `"Thanks."` has only
one word, so `_merge_short_sentences` grafts it onto the first candidate and
the result is a single sentence. -/
theorem c1_counterexample :
    (tokenize (r"Visit https://example.com/page.html today. Thanks.")).length ≠ 2 := by
  decide

/-- Claim C1 (amended): on the URL example the boundary-splitting stage yields
exactly the two candidates `"Visit https://example.com/page.html today."` and
`"Thanks."` — the URL is intact and its internal dot is never used as a
boundary — and `tokenize` then merges the two-word-short `"Thanks."` into the
first, returning exactly one sentence. -/
theorem c1_amended :
    rawSentencesOf ((r"Visit https://example.com/page.html today. Thanks.").toList) =
      [(r"Visit https://example.com/page.html today.").toList, (r"Thanks.").toList] ∧
    tokenize (r"Visit https://example.com/page.html today. Thanks.") =
      [r"Visit https://example.com/page.html today. Thanks."] := by
  decide

/-- Claim C2 (code bug): on the natural input
`"See https://a...b.com today friends"` the ellipsis inside the URL is
protected first (placeholder 0) and the URL — placeholder 0 included — is then
stored as item 1.  Restoration replaces placeholders in increasing index
order, so placeholder 0, which only reappears when item 1 is substituted,
is never restored: the returned sentence still contains the literal
`__PROTECTED_0__`. -/
theorem c2_code_bug :
    tokenizeL ((r"See https://a...b.com today friends").toList) =
      [(r"See https://a__PROTECTED_0__b.com today friends").toList] ∧
    containsSub (placeholderL 0)
      (((tokenizeL ((r"See https://a...b.com today friends").toList)).getLastD [])) = true := by
  decide

/-- Claim C3 (code bug): protection followed by restoration is not the
identity on `"https://a...b.com"`: the stored URL item embeds placeholder 0,
which restoration (in increasing index order) never substitutes. -/
theorem c3_code_bug :
    protectThenRestore ((r"https://a...b.com").toList) =
      (r"https://a__PROTECTED_0__b.com").toList ∧
    protectThenRestore ((r"https://a...b.com").toList) ≠ (r"https://a...b.com").toList := by
  decide

/-- Claim C5: `_merge_short_sentences` processes candidates in order — the
result on `ss ++ [s]` extends the result on `ss` by grafting `s` (rstrip of
the last accepted entry, a single space, then `s`) exactly when the accepted
list is nonempty and `s` has fewer than 3 whitespace-delimited words, and by a
new entry otherwise — and `tokenize "Hi."` is `["Hi."]` although `"Hi."` has
fewer than 3 words. -/
theorem c5_merge_in_order :
    (∀ (ss : List (List Char)) (s : List Char),
      mergeShortSentences (ss ++ [s]) =
        if mergeShortSentences ss ≠ [] ∧ (splitWS s).length < 3 then
          (mergeShortSentences ss).dropLast ++
            [rstripL ((mergeShortSentences ss).getLastD []) ++ ' ' :: s]
        else mergeShortSentences ss ++ [s]) ∧
    tokenize (r"Hi.") = [r"Hi."] := by
  refine ⟨fun ss s => ?_, by decide⟩
  rw [mergeShortSentences, List.foldl_append]
  rfl

/-- Claim C7 (code bug): the email pattern `[\w\.-]+@(\w\.)+\w+` requires each
dot-terminated domain label to be a single word character, so it does not
match `user@example.com` at all (protection leaves the text unchanged and the
store empty), while it does match the single-character-label address
`u@a.b.cc`. -/
theorem c7_code_bug :
    protectSpecialPatterns ((r"user@example.com").toList) [] =
      ((r"user@example.com").toList, []) ∧
    protectSpecialPatterns ((r"u@a.b.cc").toList) [] =
      ((r"__PROTECTED_0__").toList, [(r"u@a.b.cc").toList]) := by
  decide

/-- Claim C9: `tokenize` resets the per-instance store on entry, so its output
does not depend on the instance state left by earlier calls: any two states
give the same output, a repeated call on the same instance gives the same
output, and the fresh-instance wrapper agrees with `tokenize`. -/
theorem c9_deterministic_stateless :
    ∀ (st₁ st₂ : List (List Char)) (t : List Char),
      (tokenizeMethod st₁ t).1 = (tokenizeMethod st₂ t).1 ∧
      (tokenizeMethod (tokenizeMethod st₁ t).2 t).1 = (tokenizeMethod st₁ t).1 ∧
      (tokenizeMethod st₁ t).1 = tokenizeL t ∧
      (∀ u : String, gujaratiSentenceTokenizer u = tokenize u) :=
  fun _ _ _ => ⟨rfl, rfl, rfl, fun _ => rfl⟩

/-- Claim C4 (counterexample): an input whose newline is not adjacent to
boundary punctuation is returned as a single sentence with the newline still
inside it (at an internal position). -/
theorem c4_counterexample :
    tokenizeL nlExample = [nlExample] ∧ '\n' ∈ (nlExample.drop 1).dropLast := by
  decide

/-- Claim C6 (counterexample): in
`"They met on 1-2-34. Next meeting comes soon."` the dot after `34` follows a
run of ASCII digits (it matches `num_dot`, third conjunct), yet the `date`
pattern consumes `1-2-34` first — without the dot — and the dot is then
treated as a sentence boundary: `tokenize` splits exactly there. -/
theorem c6_counterexample :
    tokenize (r"They met on 1-2-34. Next meeting comes soon.") =
      [r"They met on 1-2-34.", r"Next meeting comes soon."] ∧
    containsSub ((r"34. ").toList)
      ((r"They met on 1-2-34. Next meeting comes soon.").toList) = true ∧
    (matchRE (reFuel ((r"34.").toList)) numDotRE ((r"34.").toList)).head? = some [] := by
  decide

/-- Claim C8 (counterexample): on whitespace-only input (no boundary
punctuation) the result is `[]`, not the single-element list of the trimmed
input; and on `"__PROTECTED_0__ 1-2-34"` (no boundary punctuation either) the
date protection plus the colliding literal placeholder make the output differ
from the trimmed input. -/
theorem c8_counterexample :
    tokenizeL ((r" ").toList) ≠ [stripL ((r" ").toList)] ∧
    tokenizeL ((r"__PROTECTED_0__ 1-2-34").toList) ≠
      [stripL ((r"__PROTECTED_0__ 1-2-34").toList)] ∧
    tokenizeL ((r"__PROTECTED_0__ 1-2-34").toList) = [(r"1-2-34 1-2-34").toList] := by
  decide


/-- Claim C4 (amended): for every input that contains no newline character, no
sentence returned by `tokenize` contains a newline (in particular no internal
newline).  This follows from character provenance: every character of an
output sentence is a character of the input, a placeholder character, or the
space inserted by the merger. -/
theorem c4_amended :
    ∀ (t : List Char), '\n' ∉ t → ∀ s ∈ tokenizeL t, '\n' ∉ s := by
  intro t hnl s hs hmem
  have := tokenizeL_chars (O := fun c => c ∈ t ∨ phChar c = true ∨ c = ' ')
    (fun c hc => Or.inr (Or.inl hc)) (Or.inr (Or.inr rfl)) t
    (fun c hc => Or.inl hc) s hs '\n' hmem
  rcases this with h | h | h
  · exact hnl h
  · revert h; decide
  · revert h; decide

/-- Witness for C4 (amended) at a concrete newline-free input. -/
theorem c4_witness : '\n' ∉ (tokenizeL ((r"alpha beta").toList)).headD [] :=
  c4_amended ((r"alpha beta").toList) (by decide) _ (by decide)

/-- Claim C6 (amended): after `_protect_special_patterns` no dot of the
protected text immediately follows a decimal digit (the `num_dot` pass removes
every such dot and the later `guj_matra_dot` pass preserves this), so the
splitter never splits immediately after a digit-dot sequence it can still see;
concretely, the `num_dot`-protected `"18."` does not end a sentence while the
genuine clause-final dot after `"stuff."` still splits.  (A dot whose digits
were consumed by an earlier pattern — e.g. right after a `date` match — can
still be a boundary, as the counterexample shows.) -/
theorem c6_amended :
    (∀ (t : List Char) (its : List (List Char)),
      digitDotFree ((protectSpecialPatterns t its).1) = true) ∧
    tokenize (r"Sum is 18. plus more stuff. Second sentence has words.") =
      [r"Sum is 18. plus more stuff.", r"Second sentence has words."] :=
  ⟨protect_digitDotFree, by decide⟩

/-- Claim C8 (amended): `tokenize ""` is `[]`; and for every input containing
no boundary punctuation character and no decimal digit (so that no protection
pattern — each needs a dot or a digit — can fire), `tokenize` returns the
trimmed input as a single-element list when the trimmed input is nonempty, and
`[]` when trimming leaves nothing. -/
theorem c8_amended :
    tokenizeL [] = [] ∧
    ∀ (t : List Char), (∀ c ∈ t, isBoundaryPunct c = false ∧ isPyDigit c = false) →
      tokenizeL t = if stripL t = [] then [] else [stripL t] := by
  refine ⟨by decide, fun t h => ?_⟩
  have hdot : ∀ c ∈ t, (fun c => c == '.') c = false := by
    intro c hc
    have h1 := (h c hc).1
    simp only [isBoundaryPunct, Bool.or_eq_false_iff] at h1
    exact h1.1.1.1
  have hdig : ∀ c ∈ t, isPyDigit c = false := fun c hc => (h c hc).2
  have pass : ∀ (re : RE) (g : Char → Bool), MustHave g re → (∀ c ∈ t, g c = false) →
      subPass re (t, ([] : List (List Char))) = (t, []) := by
    intro re g mh hg
    simp only [subPass]
    exact subScan_no_match re _ t [] fun s' hs =>
      matchRE_mustHave _ re mh s' fun c hc => hg c (hs.subset hc)
  have hprot : protectSpecialPatterns t [] = (t, []) := by
    simp only [protectSpecialPatterns]
    rw [pass _ _ mh_ellipsis hdot, pass _ _ mh_url hdot, pass _ _ mh_email hdot,
      pass _ _ mh_date hdig, pass _ _ mh_abbr hdot, pass _ _ mh_numDot hdot,
      pass _ _ mh_matraDot hdot]
  have hsplit : reSplitBoundary t = [t] := by
    simp only [reSplitBoundary]
    rw [splitGo_no_punct _ _ _ fun c hc => (h c hc).1]
    simp
  simp only [tokenizeL, tokenizeMethod, hprot]
  simp only [splitIntoSentences, hsplit]
  by_cases hst : stripL t = []
  · simp [hst, collectSentences, mergeShortSentences]
  · have hne : (stripL t).isEmpty = false := by
      simp [List.isEmpty_iff, hst]
    simp [collectSentences, hne, restoreProtectedItems, restoreGo, hst,
      mergeShortSentences, mergeStep]

/-- Witness for C8 (amended) at a concrete punctuation-free input. -/
theorem c8_witness :
    tokenizeL ((r"abc def").toList) =
      if stripL ((r"abc def").toList) = [] then [] else [stripL ((r"abc def").toList)] :=
  c8_amended.2 _ (by decide)

/-- Claim C10: in the list returned by `tokenize`, every sentence is nonempty,
and every sentence except possibly the first has at least 3
whitespace-delimited words. -/
theorem c10_invariant :
    ∀ (t : List Char),
      (∀ s ∈ tokenizeL t, s ≠ []) ∧
      (∀ s ∈ (tokenizeL t).drop 1, 3 ≤ (splitWS s).length) := by
  intro t
  rw [tokenizeL, tokenizeMethod]
  exact foldl_merge_invariant _ []
    (mem_splitIntoSentences_ne_nil _ _) (by simp) (by simp)

/-- Witness for C10 at a concrete two-sentence input. -/
theorem c10_witness :
    3 ≤ (splitWS ((r"Eps zeta theta iota.").toList)).length :=
  (c10_invariant ((r"Alpha beta gamma delta. Eps zeta theta iota.").toList)).2
    _ (by decide)

end GST
